import Mathlib

/-
Verification of the equation/Jacobian assembly engine of the Andes PQ load
model (src/andes/models/pq.py) and the TCSC base model
(src/andes/models/experimental/TCSCbase.py).

Machine floats are embedded as exact rationals (ℚ); array-valued operations
of the source are modelled per instance, with the global residual vector as a
function `Nat → ℚ` and the Jacobian as a function `Nat × Nat → ℚ`.
-/

namespace Andes

/-- Modelled from the spec: `altb` (andes.utils.math, not under src/) is the
element-wise below-lower indicator used by `PQ.gcall`; per the spec's
closed-below tie-break convention, `value <= lower` yields 1, else 0. -/
def altb (a b : ℚ) : ℚ := if a ≤ b then 1 else 0

/-- Modelled from the spec: `agtb` (andes.utils.math, not under src/) is the
element-wise above-upper indicator used by `PQ.gcall`; per the spec's
closed-above tie-break convention, `value >= upper` yields 1, else 0. -/
def agtb (a b : ℚ) : ℚ := if b ≤ a then 1 else 0

/-- Modelled from the spec: `aorb` (andes.utils.math, not under src/),
element-wise logical OR of two 0/1 indicator quantities. -/
def aorb (a b : ℚ) : ℚ := if a ≠ 0 ∨ b ≠ 0 then 1 else 0

/-- Modelled from the spec: `nota` (andes.utils.math, not under src/),
element-wise logical NOT of a 0/1 indicator quantity. -/
def nota (a : ℚ) : ℚ := if a = 0 then 1 else 0

/-- Below-lower-bound indicator of `PQ.gcall`: `self.below = altb(dae.y[self.v], self.vmin)`. -/
def pqBelow (y vmin : ℚ) : ℚ := altb y vmin

/-- Above-upper-bound indicator of `PQ.gcall`: `self.above = agtb(dae.y[self.v], self.vmax)`. -/
def pqAbove (y vmax : ℚ) : ℚ := agtb y vmax

/-- Normal-band indicator of `PQ.gcall`: `normal = nota(aorb(self.below, self.above))`. -/
def pqNormal (y vmin vmax : ℚ) : ℚ := nota (aorb (pqBelow y vmin) (pqAbove y vmax))

/-- Output indicators of the `Comparer` block instantiated by `PQNew.__init__`
as `Comparer(var=self.v, lower=self.vmin, upper=self.vmax)`: `zl` (below),
`zi` (within), `zu` (above). -/
structure ComparerOut where
  zl : ℚ
  zi : ℚ
  zu : ℚ
  deriving DecidableEq, Repr

/-- Modelled from the spec: `Comparer` (andes.core.limiter, not under src/)
assigns the indicator triple from `value`, `lower`, `upper` with ties broken
by the closed-below/closed-above convention of spec section 4.5:
`value <= lower` gives below, `lower < value < upper` gives within,
`value >= upper` gives above. -/
def comparerEval (value lower upper : ℚ) : ComparerOut :=
  { zl := if value ≤ lower then 1 else 0
    zi := if lower < value ∧ value < upper then 1 else 0
    zu := if upper ≤ value then 1 else 0 }

/-- C1: For every finite value, lower, and upper with lower < upper, the
comparator's indicator assignment follows the closed-bound tie-break
convention: below = 1 exactly when value <= lower, within = 1 exactly when
lower < value < upper, and above = 1 exactly when value >= upper; in
particular, for lower = 0.9 and upper = 1.1, a value of exactly 1.1 yields
above = 1.  (The same convention governs the legacy `PQ.gcall` indicators
`pqBelow`/`pqAbove`.) -/
theorem comparer_indicator_convention (value lower upper : ℚ)
    (h : lower < upper) :
    ((comparerEval value lower upper).zl = 1 ↔ value ≤ lower) ∧
    ((comparerEval value lower upper).zi = 1 ↔ lower < value ∧ value < upper) ∧
    ((comparerEval value lower upper).zu = 1 ↔ value ≥ upper) ∧
    (pqBelow value lower = 1 ↔ value ≤ lower) ∧
    (pqAbove value upper = 1 ↔ value ≥ upper) ∧
    (comparerEval (11/10) (9/10) (11/10)).zu = 1 := by
  refine ⟨?_, ?_, ?_, ?_, ?_, by norm_num [comparerEval]⟩ <;>
    simp only [comparerEval, pqBelow, pqAbove, altb, agtb, ge_iff_le] <;>
    split_ifs with hc <;> simp [hc]

/-- Closed-form instance of `comparer_indicator_convention` at
value = 1.1, lower = 0.9, upper = 1.1. -/
theorem comparer_indicator_convention_witness :
    (9/10 : ℚ) < 11/10 ∧
    ((((comparerEval (11/10) (9/10) (11/10)).zl = 1 ↔ (11/10 : ℚ) ≤ 9/10) ∧
      ((comparerEval (11/10) (9/10) (11/10)).zi = 1 ↔
        (9/10 : ℚ) < 11/10 ∧ (11/10 : ℚ) < 11/10) ∧
      ((comparerEval (11/10) (9/10) (11/10)).zu = 1 ↔ (11/10 : ℚ) ≥ 11/10) ∧
      (pqBelow (11/10) (9/10) = 1 ↔ (11/10 : ℚ) ≤ 9/10) ∧
      (pqAbove (11/10) (11/10) = 1 ↔ (11/10 : ℚ) ≥ 11/10) ∧
      (comparerEval (11/10) (9/10) (11/10)).zu = 1)) :=
  ⟨by norm_num, comparer_indicator_convention (11/10) (9/10) (11/10) (by norm_num)⟩

/-- C2: For any finite lower < upper and any finite value, exactly one of the
three indicator quantities {below, within, above} equals 1 and the other two
equal 0, both for the `Comparer` triple and for the legacy `PQ.gcall`
triple (below, normal, above). -/
theorem indicator_partition (value lower upper : ℚ) (h : lower < upper) :
    (((comparerEval value lower upper).zl = 1 ∧
      (comparerEval value lower upper).zi = 0 ∧
      (comparerEval value lower upper).zu = 0) ∨
     ((comparerEval value lower upper).zl = 0 ∧
      (comparerEval value lower upper).zi = 1 ∧
      (comparerEval value lower upper).zu = 0) ∨
     ((comparerEval value lower upper).zl = 0 ∧
      (comparerEval value lower upper).zi = 0 ∧
      (comparerEval value lower upper).zu = 1)) ∧
    ((pqBelow value lower = 1 ∧ pqNormal value lower upper = 0 ∧
      pqAbove value upper = 0) ∨
     (pqBelow value lower = 0 ∧ pqNormal value lower upper = 1 ∧
      pqAbove value upper = 0) ∨
     (pqBelow value lower = 0 ∧ pqNormal value lower upper = 0 ∧
      pqAbove value upper = 1)) := by
  rcases le_or_lt value lower with hbl | hbl
  · have hub : ¬ upper ≤ value := not_le.mpr (lt_of_le_of_lt hbl h)
    have hiv : ¬ (lower < value ∧ value < upper) := by
      rintro ⟨h1, _⟩; exact absurd hbl (not_le.mpr h1)
    constructor
    · exact Or.inl (by simp [comparerEval, hbl, hub, hiv])
    · exact Or.inl (by simp [pqBelow, pqAbove, pqNormal, altb, agtb, aorb, nota, hbl, hub])
  · rcases le_or_lt upper value with hub | hub
    · have hbl' : ¬ value ≤ lower := not_le.mpr hbl
      have hiv : ¬ (lower < value ∧ value < upper) := by
        rintro ⟨_, h2⟩; exact absurd hub (not_le.mpr h2)
      constructor
      · exact Or.inr (Or.inr (by simp [comparerEval, hbl', hub, hiv]))
      · exact Or.inr (Or.inr (by
          simp [pqBelow, pqAbove, pqNormal, altb, agtb, aorb, nota, hbl', hub]))
    · have hbl' : ¬ value ≤ lower := not_le.mpr hbl
      have hub' : ¬ upper ≤ value := not_le.mpr hub
      constructor
      · exact Or.inr (Or.inl (by simp [comparerEval, hbl', hub', hbl, hub]))
      · exact Or.inr (Or.inl (by
          simp [pqBelow, pqAbove, pqNormal, altb, agtb, aorb, nota, hbl', hub']))

/-- Closed-form instance of `indicator_partition` at value = 1, lower = 0.9,
upper = 1.1. -/
theorem indicator_partition_witness :
    (9/10 : ℚ) < 11/10 ∧
    ((((comparerEval 1 (9/10) (11/10)).zl = 1 ∧
       (comparerEval 1 (9/10) (11/10)).zi = 0 ∧
       (comparerEval 1 (9/10) (11/10)).zu = 0) ∨
      ((comparerEval 1 (9/10) (11/10)).zl = 0 ∧
       (comparerEval 1 (9/10) (11/10)).zi = 1 ∧
       (comparerEval 1 (9/10) (11/10)).zu = 0) ∨
      ((comparerEval 1 (9/10) (11/10)).zl = 0 ∧
       (comparerEval 1 (9/10) (11/10)).zi = 0 ∧
       (comparerEval 1 (9/10) (11/10)).zu = 1)) ∧
     ((pqBelow 1 (9/10) = 1 ∧ pqNormal 1 (9/10) (11/10) = 0 ∧
       pqAbove 1 (11/10) = 0) ∨
      (pqBelow 1 (9/10) = 0 ∧ pqNormal 1 (9/10) (11/10) = 1 ∧
       pqAbove 1 (11/10) = 0) ∨
      (pqBelow 1 (9/10) = 0 ∧ pqNormal 1 (9/10) (11/10) = 0 ∧
       pqAbove 1 (11/10) = 1))) :=
  ⟨by norm_num, indicator_partition 1 (9/10) (11/10) (by norm_num)⟩

/-- In-order additive accumulation of (offset, value) contributions into a
vector, as performed by `dae.g[a] += p` (and by `dae.add_jac` for the
Jacobian, with `α = Nat × Nat`). -/
def accumulate {α : Type} [DecidableEq α] (g : α → ℚ) (es : List (α × ℚ)) : α → ℚ :=
  es.foldl (fun g' e => Function.update g' e.1 (g' e.1 + e.2)) g

/-- Sum of the values of the coordinate-list entries landing on offset `j`,
as produced by `scipy.sparse.coo_matrix(...).toarray()` (duplicate
coordinates are summed). -/
def cooSum {α : Type} [DecidableEq α] (es : List (α × ℚ)) (j : α) : ℚ :=
  match es with
  | [] => 0
  | e :: rest => (if e.1 = j then e.2 else 0) + cooSum rest j

theorem cooSum_append {α : Type} [DecidableEq α] (es1 es2 : List (α × ℚ)) (j : α) :
    cooSum (es1 ++ es2) j = cooSum es1 j + cooSum es2 j := by
  induction es1 with
  | nil => simp [cooSum]
  | cons e rest ih => simp [cooSum, ih]; ring

theorem accumulate_apply {α : Type} [DecidableEq α] (es : List (α × ℚ))
    (g : α → ℚ) (j : α) : accumulate g es j = g j + cooSum es j := by
  induction es generalizing g with
  | nil => simp [accumulate, cooSum]
  | cons e rest ih =>
    show accumulate (Function.update g e.1 (g e.1 + e.2)) rest j = _
    rw [ih]
    by_cases h : e.1 = j
    · subst h
      rw [Function.update_same, cooSum]
      simp; ring
    · rw [Function.update_noteq (Ne.symm h), cooSum, if_neg h]
      ring

/-- One assembled row of `PQ.gcall`: the active-power offset `a`, the
voltage offset `v`, and the contributions `p0`, `q0` of one instance. -/
abbrev GRow : Type := Nat × Nat × ℚ × ℚ

/-- Dense per-instance accumulation path of `PQ.gcall` (taken when
`self.n <= 400`): `for a, v, p, q in zip(...): dae.g[a] += p; dae.g[v] += q`. -/
def denseAssemble (g : Nat → ℚ) (rows : List GRow) : Nat → ℚ :=
  rows.foldl (fun g' r =>
    let g1 := Function.update g' r.1 (g' r.1 + r.2.2.1)
    Function.update g1 r.2.1 (g1 r.2.1 + r.2.2.2)) g

/-- Sparse coordinate-list path of `PQ.gcall` (taken when `self.n > 400`):
two `coo_matrix` column vectors (p0 at rows `a`, q0 at rows `v`) densified
and added onto `dae.g`. -/
def sparseAssemble (g : Nat → ℚ) (rows : List GRow) : Nat → ℚ :=
  fun j => g j + cooSum (rows.map (fun r => (r.1, r.2.2.1))) j
             + cooSum (rows.map (fun r => (r.2.1, r.2.2.2))) j

/-- The interleaved (offset, value) entry list traversed by the dense path. -/
def rowEntries : List GRow → List (Nat × ℚ)
  | [] => []
  | r :: rest => (r.1, r.2.2.1) :: (r.2.1, r.2.2.2) :: rowEntries rest

theorem denseAssemble_eq_accumulate (rows : List GRow) (g : Nat → ℚ) :
    denseAssemble g rows = accumulate g (rowEntries rows) := by
  induction rows generalizing g with
  | nil => rfl
  | cons r rest ih =>
    show denseAssemble _ rest = _
    rw [ih]
    rfl

theorem cooSum_rowEntries (rows : List GRow) (j : Nat) :
    cooSum (rowEntries rows) j
      = cooSum (rows.map (fun r => (r.1, r.2.2.1))) j
        + cooSum (rows.map (fun r => (r.2.1, r.2.2.2))) j := by
  induction rows with
  | nil => simp [rowEntries, cooSum]
  | cons r rest ih => simp [rowEntries, cooSum, ih]; try ring

theorem denseAssemble_eq_sparseAssemble (g : Nat → ℚ) (rows : List GRow) :
    denseAssemble g rows = sparseAssemble g rows := by
  funext j
  rw [denseAssemble_eq_accumulate, accumulate_apply, cooSum_rowEntries,
    sparseAssemble]
  ring

/-- C4: Residual accumulation into a shared offset is additive and
order-independent: contributions +5 and +3 to the same offset leave prior + 8
in either order; in general two contributions x and y sum regardless of
order, and no contribution overwrites another. -/
theorem residual_accumulation_additive :
    (∀ (g : Nat → ℚ) (j : Nat) (x y : ℚ),
        accumulate g [(j, x), (j, y)] j = g j + (x + y) ∧
        accumulate g [(j, y), (j, x)] j = g j + (x + y)) ∧
    (∀ (g : Nat → ℚ) (j : Nat),
        accumulate g [(j, 5), (j, 3)] j = g j + 8 ∧
        accumulate g [(j, 3), (j, 5)] j = g j + 8) := by
  constructor
  · intro g j x y
    constructor <;> · rw [accumulate_apply]; simp [cooSum]; try ring
  · intro g j
    constructor <;> · rw [accumulate_apply]; simp [cooSum]; try ring

/-- The system configuration flags read by `PQ.gcall` / `PQ.gycall`
(`self.system.config.forcez`, `self.system.config.forcepq`) together with the
truthiness of the stored initial-voltage vector `self.v0` tested by
`if self.v0:`. -/
structure PQConfig where
  forcez : Bool
  forcepq : Bool
  hasV0 : Bool
  deriving DecidableEq, Repr

/-- One PQ load instance: status `u`, constant powers `p`, `q`, voltage
limits `vmin`, `vmax`, the global offsets `a` (active-power residual row) and
`v` (voltage / reactive-power residual row), the current voltage iterate
`y` (= `dae.y[self.v]`), the stored initial voltage `v0`, and the indicator
state `below`, `above` written by `gcall` and read back by `gycall`. -/
structure PQInst where
  u : ℚ
  p : ℚ
  q : ℚ
  vmin : ℚ
  vmax : ℚ
  a : Nat
  v : Nat
  y : ℚ
  v0 : ℚ
  below : ℚ
  above : ℚ
  deriving DecidableEq, Repr

/-- The blend factor `k` of `PQ.gcall` in the normal (limit-switching)
regime: `k = below*(y^2/vmin^2) + above*(y^2/vmax^2) + normal*1`, indicators
recomputed from the current iterate. -/
def pqK (y vmin vmax : ℚ) : ℚ :=
  pqBelow y vmin * (y ^ 2 / vmin ^ 2) + pqAbove y vmax * (y ^ 2 / vmax ^ 2)
    + pqNormal y vmin vmax * 1

/-- Per-instance `k` of `PQ.gcall` before the status multiplication:
forced impedance (`forcez`, with `k = y^2/v0^2` only when `v0` is truthy),
forced PQ (`k` stays `ones`), else the switching blend `pqK`. -/
def gcallK (c : PQConfig) (i : PQInst) : ℚ :=
  if c.forcez then (if c.hasV0 then i.y ^ 2 / i.v0 ^ 2 else 1)
  else if c.forcepq then 1
  else pqK i.y i.vmin i.vmax

/-- Active-power contribution of one instance:
`k = mul(self.u, k); self.p0 = mul(k, self.p)`. -/
def gcallP0 (c : PQConfig) (i : PQInst) : ℚ := i.u * gcallK c i * i.p

/-- Reactive-power contribution of one instance:
`self.q0 = mul(k, self.q)`. -/
def gcallQ0 (c : PQConfig) (i : PQInst) : ℚ := i.u * gcallK c i * i.q

/-- The rows `(a, v, p0, q0)` assembled by `PQ.gcall`. -/
def gcallRows (c : PQConfig) (insts : List PQInst) : List GRow :=
  insts.map (fun i => (i.a, i.v, gcallP0 c i, gcallQ0 c i))

/-- `PQ.gcall` residual assembly: the dense per-instance loop when
`self.n <= 400`, the sparse coordinate-list path otherwise. -/
def gcall (c : PQConfig) (g : Nat → ℚ) (insts : List PQInst) : Nat → ℚ :=
  if insts.length ≤ 400 then denseAssemble g (gcallRows c insts)
  else sparseAssemble g (gcallRows c insts)

/-- C3: The dense per-instance accumulation path (taken when n <= 400) and
the sparse coordinate-list path (taken when n > 400) of `PQ.gcall` add the
same values into the global residual vector, for every instance count; the
choice of path never changes the result (in exact arithmetic, i.e. up to
floating-point summation order). -/
theorem dense_sparse_paths_agree :
    (∀ (g : Nat → ℚ) (rows : List GRow),
        denseAssemble g rows = sparseAssemble g rows) ∧
    (∀ (c : PQConfig) (g : Nat → ℚ) (insts : List PQInst),
        gcall c g insts = denseAssemble g (gcallRows c insts) ∧
        gcall c g insts = sparseAssemble g (gcallRows c insts)) := by
  refine ⟨denseAssemble_eq_sparseAssemble, fun c g insts => ?_⟩
  unfold gcall
  by_cases h : insts.length ≤ 400 <;>
    simp [h, denseAssemble_eq_sparseAssemble]

/-- Per-instance `k` of `PQ.gycall` (starts from `zeros`): forced PQ never
reaches it, forced impedance gives `2*y/v0^2` when `v0` is truthy, else the
indicator-weighted `below*(2*y/vmin^2) + above*(2*y/vmax^2)` with the
indicators stored by the last `gcall`. -/
def gycallK (c : PQConfig) (i : PQInst) : ℚ :=
  if c.forcez then (if c.hasV0 then 2 * i.y / i.v0 ^ 2 else 0)
  else i.below * (2 * i.y / i.vmin ^ 2) + i.above * (2 * i.y / i.vmax ^ 2)

/-- Value stamped by `dae.add_jac(Gy, mul(self.p, k), self.a, self.v)` with
`k = mul(self.u, k)`. -/
def gyStampP (c : PQConfig) (i : PQInst) : ℚ := i.p * (i.u * gycallK c i)

/-- Value stamped by `dae.add_jac(Gy, mul(self.q, k), self.v, self.v)`. -/
def gyStampQ (c : PQConfig) (i : PQInst) : ℚ := i.q * (i.u * gycallK c i)

/-- `PQ.gycall`: returns at once under forced PQ, otherwise accumulates the
two stamps of every instance into the Gy Jacobian block. -/
def gycall (c : PQConfig) (J : Nat × Nat → ℚ) (insts : List PQInst) :
    Nat × Nat → ℚ :=
  if c.forcepq then J
  else
    accumulate
      (accumulate J (insts.map (fun i => ((i.a, i.v), gyStampP c i))))
      (insts.map (fun i => ((i.v, i.v), gyStampQ c i)))

/-- The default configuration: neither forced impedance nor forced PQ, i.e.
the limit-switching regime of `PQ.gcall` / `PQ.gycall`. -/
def switching : PQConfig := ⟨false, false, false⟩

/-- C5: For an enabled load instance with lower bound 0.9 and upper bound
1.1: at voltage 1.0 the within indicator is 1 and the residual contribution
is the unblended constant powers p and q; at voltage 0.8 the below indicator
is 1 and the contribution is p and q scaled by (0.8/0.9)^2. -/
theorem pq_scenario_residuals (p q : ℚ) :
    pqNormal 1 (9/10) (11/10) = 1 ∧
    gcallP0 switching ⟨1, p, q, 9/10, 11/10, 0, 1, 1, 1, 0, 0⟩ = p ∧
    gcallQ0 switching ⟨1, p, q, 9/10, 11/10, 0, 1, 1, 1, 0, 0⟩ = q ∧
    pqBelow (8/10) (9/10) = 1 ∧
    gcallP0 switching ⟨1, p, q, 9/10, 11/10, 0, 1, 8/10, 1, 0, 0⟩
      = ((8/10 : ℚ) / (9/10)) ^ 2 * p ∧
    gcallQ0 switching ⟨1, p, q, 9/10, 11/10, 0, 1, 8/10, 1, 0, 0⟩
      = ((8/10 : ℚ) / (9/10)) ^ 2 * q := by
  refine ⟨?_, ?_, ?_, ?_, ?_, ?_⟩ <;>
    norm_num [gcallP0, gcallQ0, gcallK, switching, pqK, pqBelow, pqAbove,
      pqNormal, altb, agtb, aorb, nota]

/-- Residual contribution of one instance as a real-valued function of the
voltage iterate, translated from the normal branch of `PQ.gcall`
(`p0 = u * k * w` with `k = below*(y^2/vmin^2) + above*(y^2/vmax^2) +
normal*1`) with the indicator quantities held constant, per the
piecewise-smooth Newton linearization rule. -/
noncomputable def pqResidual (u w below above normal vmin vmax : ℝ) (y : ℝ) : ℝ :=
  u * (below * (y ^ 2 / vmin ^ 2) + above * (y ^ 2 / vmax ^ 2) + normal * 1) * w

theorem deriv_pqResidual (u w bl ab nm vmin vmax y : ℝ) :
    deriv (pqResidual u w bl ab nm vmin vmax) y
      = u * (bl * (2 * y) / vmin ^ 2 + ab * (2 * y) / vmax ^ 2) * w := by
  have h2 : HasDerivAt (fun t : ℝ => t ^ 2) (2 * y) y := by
    simpa using hasDerivAt_pow 2 y
  have hbl := (h2.div_const (vmin ^ 2)).const_mul bl
  have hab := (h2.div_const (vmax ^ 2)).const_mul ab
  have hall := (((hbl.add hab).add_const (nm * 1)).const_mul u).mul_const w
  have hd : HasDerivAt (pqResidual u w bl ab nm vmin vmax)
      (u * (bl * (2 * y / vmin ^ 2) + ab * (2 * y / vmax ^ 2)) * w) y := hall
  rw [hd.deriv]; ring

/-- C6: For every instance, the value stamped by `PQ.gycall` at
(row = active-power offset, column = voltage offset) and at
(row = reactive-power offset, column = voltage offset) equals the analytic
partial derivative with respect to voltage of that instance's residual with
the indicators held constant, i.e. u*p*(below*2v/vmin^2 + above*2v/vmax^2)
and u*q*(below*2v/vmin^2 + above*2v/vmax^2); when both indicators are zero
(normal band) the stamped derivative contribution is zero. -/
theorem gycall_stamps_analytic_derivative (i : PQInst) (nm : ℝ) :
    deriv (pqResidual (i.u : ℝ) (i.p : ℝ) (i.below : ℝ) (i.above : ℝ) nm
        (i.vmin : ℝ) (i.vmax : ℝ)) (i.y : ℝ)
      = ((gyStampP switching i : ℚ) : ℝ) ∧
    deriv (pqResidual (i.u : ℝ) (i.q : ℝ) (i.below : ℝ) (i.above : ℝ) nm
        (i.vmin : ℝ) (i.vmax : ℝ)) (i.y : ℝ)
      = ((gyStampQ switching i : ℚ) : ℝ) ∧
    gyStampP switching i
      = i.u * i.p * (i.below * (2 * i.y) / i.vmin ^ 2
                      + i.above * (2 * i.y) / i.vmax ^ 2) ∧
    gyStampQ switching i
      = i.u * i.q * (i.below * (2 * i.y) / i.vmin ^ 2
                      + i.above * (2 * i.y) / i.vmax ^ 2) ∧
    gyStampP switching { i with below := 0, above := 0 } = 0 ∧
    gyStampQ switching { i with below := 0, above := 0 } = 0 := by
  refine ⟨?_, ?_, ?_, ?_, ?_, ?_⟩
  · rw [deriv_pqResidual]
    simp only [gyStampP, gycallK, switching, Bool.false_eq_true, if_false]
    push_cast
    ring
  · rw [deriv_pqResidual]
    simp only [gyStampQ, gycallK, switching, Bool.false_eq_true, if_false]
    push_cast
    ring
  · simp only [gyStampP, gycallK, switching, Bool.false_eq_true, if_false]
    ring
  · simp only [gyStampQ, gycallK, switching, Bool.false_eq_true, if_false]
    ring
  · simp [gyStampP, gycallK, switching]
  · simp [gyStampQ, gycallK, switching]

theorem gcall_eq_sparse (c : PQConfig) (g : Nat → ℚ) (insts : List PQInst) :
    gcall c g insts = sparseAssemble g (gcallRows c insts) := by
  unfold gcall
  by_cases h : insts.length ≤ 400 <;> simp [h, denseAssemble_eq_sparseAssemble]

theorem gycall_apply (c : PQConfig) (J : Nat × Nat → ℚ) (insts : List PQInst)
    (h : c.forcepq = false) (rc : Nat × Nat) :
    gycall c J insts rc
      = J rc + cooSum (insts.map (fun i => ((i.a, i.v), gyStampP c i))) rc
            + cooSum (insts.map (fun i => ((i.v, i.v), gyStampQ c i))) rc := by
  simp only [gycall, h, Bool.false_eq_true, if_false]
  rw [accumulate_apply, accumulate_apply]

/-- C9: An instance whose status flag u equals 0 contributes exactly zero in
every regime: its p0, q0 and both Jacobian stamps vanish, and removing it
from the instance list changes neither the assembled residual vector nor the
assembled Jacobian. -/
theorem disabled_instance_no_contribution (c : PQConfig) (i : PQInst)
    (pre post : List PQInst) (g : Nat → ℚ) (J : Nat × Nat → ℚ)
    (hu : i.u = 0) :
    gcallP0 c i = 0 ∧ gcallQ0 c i = 0 ∧
    gyStampP c i = 0 ∧ gyStampQ c i = 0 ∧
    gcall c g (pre ++ i :: post) = gcall c g (pre ++ post) ∧
    gycall c J (pre ++ i :: post) = gycall c J (pre ++ post) := by
  have hp : gcallP0 c i = 0 := by simp [gcallP0, hu]
  have hq : gcallQ0 c i = 0 := by simp [gcallQ0, hu]
  have hsp : gyStampP c i = 0 := by simp [gyStampP, hu]
  have hsq : gyStampQ c i = 0 := by simp [gyStampQ, hu]
  refine ⟨hp, hq, hsp, hsq, ?_, ?_⟩
  · funext j
    rw [gcall_eq_sparse, gcall_eq_sparse]
    simp only [sparseAssemble, gcallRows, List.map_append, List.map_cons,
      cooSum_append, cooSum, hp, hq]
    simp
  · by_cases hpq : c.forcepq
    · simp [gycall, hpq]
    · funext rc
      rw [gycall_apply c J _ (by simpa using hpq),
        gycall_apply c J _ (by simpa using hpq)]
      simp only [List.map_append, List.map_cons, cooSum_append, cooSum,
        hsp, hsq]
      simp

/-- Closed-form instance of `disabled_instance_no_contribution`: a disabled
instance (u = 0) in the switching regime contributes nothing. -/
theorem disabled_instance_no_contribution_witness :
    (PQInst.mk 0 2 3 (9/10) (11/10) 0 1 1 1 0 0).u = 0 ∧
    (gcallP0 switching ⟨0, 2, 3, 9/10, 11/10, 0, 1, 1, 1, 0, 0⟩ = 0 ∧
     gcallQ0 switching ⟨0, 2, 3, 9/10, 11/10, 0, 1, 1, 1, 0, 0⟩ = 0 ∧
     gyStampP switching ⟨0, 2, 3, 9/10, 11/10, 0, 1, 1, 1, 0, 0⟩ = 0 ∧
     gyStampQ switching ⟨0, 2, 3, 9/10, 11/10, 0, 1, 1, 1, 0, 0⟩ = 0 ∧
     gcall switching (fun _ => 0) ([] ++ ⟨0, 2, 3, 9/10, 11/10, 0, 1, 1, 1, 0, 0⟩ :: [])
       = gcall switching (fun _ => 0) ([] ++ []) ∧
     gycall switching (fun _ => 0) ([] ++ ⟨0, 2, 3, 9/10, 11/10, 0, 1, 1, 1, 0, 0⟩ :: [])
       = gycall switching (fun _ => 0) ([] ++ [])) :=
  ⟨rfl, disabled_instance_no_contribution switching
    ⟨0, 2, 3, 9/10, 11/10, 0, 1, 1, 1, 0, 0⟩ [] [] (fun _ => 0) (fun _ => 0) rfl⟩

/-- C10: With the forced-PQ flag set (and the forced-impedance flag, which
`PQ.gcall` tests first, clear), every instance's residual contribution is the
constant u*p and u*q for any voltage iterate, and `PQ.gycall` returns without
stamping, leaving the Jacobian unchanged. -/
theorem forcepq_constant_power (c : PQConfig) (i : PQInst)
    (J : Nat × Nat → ℚ) (insts : List PQInst)
    (hpq : c.forcepq = true) (hz : c.forcez = false) :
    gcallP0 c i = i.u * i.p ∧ gcallQ0 c i = i.u * i.q ∧
    gycall c J insts = J := by
  refine ⟨?_, ?_, ?_⟩ <;>
    simp [gcallP0, gcallQ0, gcallK, gycall, hpq, hz]

/-- Closed-form instance of `forcepq_constant_power` at a concrete
configuration, instance, Jacobian and instance list. -/
theorem forcepq_constant_power_witness :
    (PQConfig.mk false true false).forcepq = true ∧
    (PQConfig.mk false true false).forcez = false ∧
    (gcallP0 ⟨false, true, false⟩ ⟨1, 2, 3, 9/10, 11/10, 0, 1, 1/2, 1, 0, 0⟩
        = (⟨1, 2, 3, 9/10, 11/10, 0, 1, 1/2, 1, 0, 0⟩ : PQInst).u
          * (⟨1, 2, 3, 9/10, 11/10, 0, 1, 1/2, 1, 0, 0⟩ : PQInst).p ∧
     gcallQ0 ⟨false, true, false⟩ ⟨1, 2, 3, 9/10, 11/10, 0, 1, 1/2, 1, 0, 0⟩
        = (⟨1, 2, 3, 9/10, 11/10, 0, 1, 1/2, 1, 0, 0⟩ : PQInst).u
          * (⟨1, 2, 3, 9/10, 11/10, 0, 1, 1/2, 1, 0, 0⟩ : PQInst).q ∧
     gycall ⟨false, true, false⟩ (fun _ => 0)
        [⟨1, 2, 3, 9/10, 11/10, 0, 1, 1/2, 1, 0, 0⟩] = (fun _ => 0)) :=
  ⟨rfl, rfl, forcepq_constant_power ⟨false, true, false⟩
    ⟨1, 2, 3, 9/10, 11/10, 0, 1, 1/2, 1, 0, 0⟩ (fun _ => 0)
    [⟨1, 2, 3, 9/10, 11/10, 0, 1, 1/2, 1, 0, 0⟩] rfl rfl⟩

/-- Modelled from the spec: the composition-time error taxonomy of section 7
(the composition engine itself is not under src/). -/
inductive CompositionCause where
  | DuplicateDeclaration (name : String)
  | UnresolvedReference (name : String)
  | UndefinedSymbol (name : String)
  deriving DecidableEq, Repr

/-- Modelled from the spec: `initialize` failures wrap a composition cause in
a `ModelCompositionError`. -/
inductive InitFailure where
  | ModelCompositionError (cause : CompositionCause)
  deriving DecidableEq, Repr

/-- A model's name environment as the equation compiler sees it: the names
its declarations introduce, the names reachable via bound references, and the
names its expressions and indexers reference. -/
structure ModelDecl where
  declared : List String
  bound : List String
  referenced : List String
  deriving DecidableEq, Repr

/-- The referenced names that are neither declared nor reachable via a bound
reference. -/
def undefinedSymbols (m : ModelDecl) : List String :=
  m.referenced.filter (fun n => !(m.declared.contains n || m.bound.contains n))

/-- Modelled from the spec: compilation (spec section 4.3) fails with
`UndefinedSymbol` if an expression references a name not declared by the
model or reachable via a bound reference (the compiler is not under src/). -/
def compileModel (m : ModelDecl) : Except CompositionCause Unit :=
  match undefinedSymbols m with
  | [] => Except.ok ()
  | n :: _ => Except.error (CompositionCause.UndefinedSymbol n)

/-- Modelled from the spec: the compiled system handed to the outer solver
(spec section 6). -/
structure CompiledSystem where
  compiled : List ModelDecl
  deriving DecidableEq, Repr

/-- Modelled from the spec: `initialize` (spec section 6) compiles every
model and fails with `ModelCompositionError` wrapping the cause if any model
is malformed; no partial `CompiledSystem` is returned. -/
def initializeSystem (ms : List ModelDecl) : Except InitFailure CompiledSystem :=
  match ms with
  | [] => Except.ok ⟨[]⟩
  | m :: rest =>
    match compileModel m with
    | Except.error c => Except.error (InitFailure.ModelCompositionError c)
    | Except.ok _ =>
      match initializeSystem rest with
      | Except.error e => Except.error e
      | Except.ok s => Except.ok ⟨m :: s.compiled⟩

/-- Name environment of the TCSC base model
(src/andes/models/experimental/TCSCbase.py): `TCSCBaseData` declares `tcsc`,
`P`, `wref0`, `Xc`, `Xl`, `alpha`; `TCSCBase` declares `Sg`, `Vn`, `wref`;
the declarations reference the indexer `syn` (used by the `ExtParam`s `Sg`
and `Vn` but never assigned anywhere) and the names `wref0`, `wref` used in
`wref`'s `v_str`/`e_str`. -/
def tcscBase : ModelDecl :=
  { declared := ["tcsc", "P", "wref0", "Xc", "Xl", "alpha", "Sg", "Vn", "wref"]
    bound := []
    referenced := ["syn", "wref0", "wref"] }

theorem mem_undefinedSymbols (m : ModelDecl) (x : String) :
    x ∈ undefinedSymbols m ↔
      x ∈ m.referenced ∧ x ∉ m.declared ∧ x ∉ m.bound := by
  simp [undefinedSymbols, List.mem_filter, and_assoc]

theorem compileModel_error_of_undefined (m : ModelDecl) (x : String)
    (hx : x ∈ m.referenced) (hxd : x ∉ m.declared) (hxb : x ∉ m.bound) :
    ∃ n, n ∈ m.referenced ∧ n ∉ m.declared ∧ n ∉ m.bound ∧
      compileModel m = Except.error (CompositionCause.UndefinedSymbol n) := by
  have hmem : x ∈ undefinedSymbols m :=
    (mem_undefinedSymbols m x).mpr ⟨hx, hxd, hxb⟩
  rcases hu : undefinedSymbols m with _ | ⟨n, rest⟩
  · rw [hu] at hmem; cases hmem
  · have hn : n ∈ undefinedSymbols m := by
      rw [hu]; exact List.mem_cons_self n rest
    obtain ⟨h1, h2, h3⟩ := (mem_undefinedSymbols m n).mp hn
    exact ⟨n, h1, h2, h3, by simp [compileModel, hu]⟩

theorem initializeSystem_error_of_mem (ms : List ModelDecl) (m : ModelDecl)
    (hm : m ∈ ms) (c0 : CompositionCause)
    (hc : compileModel m = Except.error c0) :
    ∃ c, initializeSystem ms
        = Except.error (InitFailure.ModelCompositionError c) := by
  induction ms with
  | nil => cases hm
  | cons a rest ih =>
    cases ha : compileModel a with
    | error c => exact ⟨c, by simp [initializeSystem, ha]⟩
    | ok u =>
      rcases List.mem_cons.mp hm with heq | hmem
      · subst heq; rw [hc] at ha; cases ha
      · obtain ⟨c, hrec⟩ := ih hmem
        exact ⟨c, by simp [initializeSystem, ha, hrec]⟩

/-- C8: For every model whose declarations reference a name that is neither
declared by the model nor reachable via a bound reference — such as the
unassigned `syn` indexer of the TCSC base model — composition fails:
compilation yields an `UndefinedSymbol` (naming such a referenced-but-undefined
name), `initialize` on any system containing the model yields a
`ModelCompositionError` (for the model alone, wrapping that very
`UndefinedSymbol`), and no partial `CompiledSystem` is returned. -/
theorem tcsc_composition_fails (m : ModelDecl) (x : String)
    (hx : x ∈ m.referenced) (hxd : x ∉ m.declared) (hxb : x ∉ m.bound) :
    (∃ n, n ∈ m.referenced ∧ n ∉ m.declared ∧ n ∉ m.bound ∧
      compileModel m = Except.error (CompositionCause.UndefinedSymbol n) ∧
      initializeSystem [m]
        = Except.error (InitFailure.ModelCompositionError
            (CompositionCause.UndefinedSymbol n)) ∧
      (initializeSystem [m]).isOk = false) ∧
    (∀ ms : List ModelDecl, m ∈ ms →
      ∃ c, initializeSystem ms
          = Except.error (InitFailure.ModelCompositionError c) ∧
        (initializeSystem ms).isOk = false) ∧
    compileModel tcscBase
      = Except.error (CompositionCause.UndefinedSymbol "syn") ∧
    initializeSystem [tcscBase]
      = Except.error
          (InitFailure.ModelCompositionError
            (CompositionCause.UndefinedSymbol "syn")) ∧
    (initializeSystem [tcscBase]).isOk = false := by
  obtain ⟨n, h1, h2, h3, hcomp⟩ :=
    compileModel_error_of_undefined m x hx hxd hxb
  have hinit : initializeSystem [m]
      = Except.error (InitFailure.ModelCompositionError
          (CompositionCause.UndefinedSymbol n)) := by
    simp [initializeSystem, hcomp]
  refine ⟨⟨n, h1, h2, h3, hcomp, hinit, by rw [hinit]; rfl⟩,
    ?_, rfl, rfl, rfl⟩
  intro ms hm
  obtain ⟨c, hc⟩ := initializeSystem_error_of_mem ms m hm _ hcomp
  exact ⟨c, hc, by rw [hc]; rfl⟩

/-- Closed-form instance of `tcsc_composition_fails` at the TCSC base model
and its unassigned indexer `syn`. -/
theorem tcsc_composition_fails_witness :
    ("syn" ∈ tcscBase.referenced ∧ "syn" ∉ tcscBase.declared ∧
      "syn" ∉ tcscBase.bound) ∧
    ((∃ n, n ∈ tcscBase.referenced ∧ n ∉ tcscBase.declared ∧
        n ∉ tcscBase.bound ∧
        compileModel tcscBase
          = Except.error (CompositionCause.UndefinedSymbol n) ∧
        initializeSystem [tcscBase]
          = Except.error (InitFailure.ModelCompositionError
              (CompositionCause.UndefinedSymbol n)) ∧
        (initializeSystem [tcscBase]).isOk = false) ∧
     (∀ ms : List ModelDecl, tcscBase ∈ ms →
        ∃ c, initializeSystem ms
            = Except.error (InitFailure.ModelCompositionError c) ∧
          (initializeSystem ms).isOk = false) ∧
     compileModel tcscBase
       = Except.error (CompositionCause.UndefinedSymbol "syn") ∧
     initializeSystem [tcscBase]
       = Except.error
           (InitFailure.ModelCompositionError
             (CompositionCause.UndefinedSymbol "syn")) ∧
     (initializeSystem [tcscBase]).isOk = false) :=
  ⟨⟨by decide, by decide, by decide⟩,
    tcsc_composition_fails tcscBase "syn" (by decide) (by decide) (by decide)⟩

end Andes
